import Mathlib

/-!
Shallow embedding of the adaptive float32 encoding codec (`encoding.py`).

The codec splits each 32-bit IEEE-754 float bit pattern into a `primary`
stream (sign, exponent, and the high mantissa bits) and a `residual` stream
(the low mantissa bits), the split controlled by an `aggression` parameter
fixed at construction.

Modelling decisions, each forced by the source:
* Tensors of float32/int32 values are modelled as `List ℕ` of 32-bit
  patterns.  All bit operations in the source (`>>`, `<<`, `&`, `|` on an
  `int32` view) act on the two's-complement bit pattern; extracting a field
  with an arithmetic shift followed by a mask gives exactly the same bits as
  a logical shift on the unsigned pattern, so `ℕ` with logical shifts is an
  exact model.  `decode`'s `.to(torch.int32)` truncates wider inputs to the
  low 32 bits, modelled by `% 2 ^ 32`.
* For every codec produced by `Encoding.init` (so `primary_m_bits +
  residual_m_bits = 23`), all intermediate packed values stay strictly below
  `2 ^ 32`, so the `int32` arithmetic in the source never wraps and no
  further reductions are needed inside the word-level transforms.
* `aggression` is a Python float; it is modelled as an exact rational.
  Python's `round` (round-half-to-even, "banker's rounding") is modelled by
  `pyRound`.  The `assert` in `__init__` is modelled by returning an
  `Option`: `none` is the `AssertionError` / `InvalidParameter` failure.
* The streams passed to `decode` are torch tensors, so an elementwise
  operation on two streams of different lengths follows torch's 1-D
  broadcasting rule: equal lengths combine index-wise, a length-1 stream is
  broadcast against the other, and any other length combination raises an
  error (modelled by `none`).  `broadcastZipWith` captures exactly this.
-/

namespace AdaptiveFP

/-- Python's built-in `round` on an exact rational value: round to nearest
integer, ties to even (banker's rounding). -/
def pyRound (x : ℚ) : ℤ :=
  if x - ⌊x⌋ < 1/2 then ⌊x⌋
  else if 1/2 < x - ⌊x⌋ then ⌊x⌋ + 1
  else if ⌊x⌋ % 2 = 0 then ⌊x⌋ else ⌊x⌋ + 1

/-- The codec configuration computed by `Encoding.__init__`: the aggression
parameter together with the derived mantissa bit split. -/
structure Encoding where
  aggression : ℚ
  m_bits : ℕ
  primary_m_bits : ℕ
  residual_m_bits : ℕ
deriving DecidableEq

/-- `Encoding.__init__` (lines 41-46): asserts `0.0 <= aggression <= 1.0`
(`none` models the `AssertionError`), sets `m_bits = 23`,
`primary_m_bits = round((1 - aggression) * m_bits)` and
`residual_m_bits = m_bits - primary_m_bits`.  The rounded value always lies
in `[0, 23]` under the assertion (proved in `init_primary_le`), so the
`Int.toNat` coercion and the truncated `ℕ` subtraction are exact images of
the Python `int` arithmetic. -/
def Encoding.init (aggression : ℚ) : Option Encoding :=
  if 0 ≤ aggression ∧ aggression ≤ 1 then
    some ⟨aggression, 23, (pyRound ((1 - aggression) * 23)).toNat,
          23 - (pyRound ((1 - aggression) * 23)).toNat⟩
  else none

/-- The default value of the `aggression` argument in the source signature
`def __init__(self, aggression: float=0.5)`. -/
def Encoding.defaultAggression : ℚ := 1/2

/-- Construction with the `aggression` argument omitted: Python substitutes
the default `0.5`. -/
def Encoding.initDefault : Option Encoding :=
  Encoding.init Encoding.defaultAggression

/-- One element of `Encoding.encode` (lines 48-61): extract sign, exponent
and mantissa from the 32-bit pattern, split the mantissa at
`residual_m_bits`, and pack `sign : exponent : high mantissa bits` into the
primary word; the residual word is the low mantissa bits. -/
def encodeWord (e : Encoding) (raw : ℕ) : ℕ × ℕ :=
  let sign := (raw >>> 31) &&& 0x1
  let exponent := (raw >>> 23) &&& 0xFF
  let mantissa := raw &&& 0x7FFFFF
  let mantissa_primary := mantissa >>> e.residual_m_bits
  let mantissa_residual := mantissa &&& ((1 <<< e.residual_m_bits) - 1)
  ((sign <<< (8 + e.primary_m_bits)) ||| (exponent <<< e.primary_m_bits) ||| mantissa_primary,
   mantissa_residual)

/-- `Encoding.encode` (lines 48-61) over a flattened tensor: the two streams
are the per-element primary and residual words. -/
def Encoding.encode (e : Encoding) (tensor_fp32 : List ℕ) : List ℕ × List ℕ :=
  (tensor_fp32.map fun raw => (encodeWord e raw).1,
   tensor_fp32.map fun raw => (encodeWord e raw).2)

/-- One element of `Encoding.decode` (lines 63-74): unpack the primary word,
reattach the residual bits below the primary mantissa bits, and reassemble
the 32-bit pattern. -/
def decodeWord (e : Encoding) (primary residual : ℕ) : ℕ :=
  let mantissa_primary := primary &&& ((1 <<< e.primary_m_bits) - 1)
  let exponent := (primary >>> e.primary_m_bits) &&& 0xFF
  let sign := (primary >>> (8 + e.primary_m_bits)) &&& 0x1
  let mantissa := (mantissa_primary <<< e.residual_m_bits) ||| residual
  (sign <<< 31) ||| (exponent <<< 23) ||| mantissa

/-- One element of `Encoding.decode_low` (lines 76-86): as `decodeWord` but
the residual bits are taken to be zero. -/
def decodeLowWord (e : Encoding) (primary : ℕ) : ℕ :=
  let mantissa_primary := primary &&& ((1 <<< e.primary_m_bits) - 1)
  let exponent := (primary >>> e.primary_m_bits) &&& 0xFF
  let sign := (primary >>> (8 + e.primary_m_bits)) &&& 0x1
  let mantissa := mantissa_primary <<< e.residual_m_bits
  (sign <<< 31) ||| (exponent <<< 23) ||| mantissa

/-- Torch 1-D broadcasting of a binary elementwise operation: equal lengths
combine index-wise; a length-1 operand is broadcast against the other; any
other combination of lengths is a shape error (`none`). -/
def broadcastZipWith (f : ℕ → ℕ → ℕ) (xs ys : List ℕ) : Option (List ℕ) :=
  if xs.length = ys.length then some (List.zipWith f xs ys)
  else if xs.length = 1 then some (ys.map (f xs.headI))
  else if ys.length = 1 then some (xs.map fun x => f x ys.headI)
  else none

/-- `Encoding.decode` (lines 63-74): both streams are first truncated to
`int32` (`.to(torch.int32)`, i.e. `% 2 ^ 32` on the pattern), then combined
elementwise under torch broadcasting. -/
def Encoding.decode (e : Encoding) (primary_stream residual_stream : List ℕ) :
    Option (List ℕ) :=
  broadcastZipWith (decodeWord e)
    (primary_stream.map (· % 2 ^ 32))
    (residual_stream.map (· % 2 ^ 32))

/-- `Encoding.decode_low` (lines 76-86): truncate the primary stream to
`int32` and decode each word with residual bits zero. -/
def Encoding.decode_low (e : Encoding) (primary_stream : List ℕ) : List ℕ :=
  (primary_stream.map (· % 2 ^ 32)).map (decodeLowWord e)

/-- The codec built by `Encoding(aggression=0.5)` (and by the default
argument): mantissa split 12 primary / 11 residual. -/
def enc05 : Encoding := ⟨1/2, 23, 12, 11⟩

/-- The codec built by `Encoding(aggression=0.0)`: all 23 mantissa bits in
the primary stream. -/
def enc00 : Encoding := ⟨0, 23, 23, 0⟩

/-- The codec built by `Encoding(aggression=1.0)`: all 23 mantissa bits in
the residual stream. -/
def enc10 : Encoding := ⟨1, 23, 0, 23⟩

/-! ### Construction: rounding bounds and concrete codecs -/

lemma pyRound_nonneg (x : ℚ) (hx : 0 ≤ x) : 0 ≤ pyRound x := by
  unfold pyRound
  have hf : (0 : ℤ) ≤ ⌊x⌋ := Int.floor_nonneg.mpr hx
  split
  · exact hf
  · split
    · omega
    · split <;> omega

lemma pyRound_le (x : ℚ) (n : ℤ) (hx : x ≤ n) : pyRound x ≤ n := by
  have hf : ⌊x⌋ ≤ n := by
    have h := Int.floor_mono hx
    rwa [Int.floor_intCast] at h
  unfold pyRound
  by_cases h1 : x - ⌊x⌋ < 1/2
  · rw [if_pos h1]; exact hf
  · rw [if_neg h1]
    have hlt : ⌊x⌋ < n := by
      rcases lt_or_eq_of_le hf with h | h
      · exact h
      · exfalso
        apply h1
        rw [h]
        have hle : x - (n : ℚ) ≤ 0 := sub_nonpos.mpr hx
        linarith
    split
    · omega
    · split <;> omega

lemma init_primary_le (a : ℚ) (h0 : 0 ≤ a) (_h1 : a ≤ 1) :
    (pyRound ((1 - a) * 23)).toNat ≤ 23 := by
  have hx : (1 - a) * 23 ≤ ((23 : ℤ) : ℚ) := by push_cast; nlinarith
  have h := pyRound_le _ _ hx
  omega

lemma init_eq_some (a : ℚ) (e : Encoding) (h : Encoding.init a = some e) :
    0 ≤ a ∧ a ≤ 1 ∧ e.aggression = a ∧ e.m_bits = 23 ∧ e.primary_m_bits ≤ 23 ∧
      e.residual_m_bits = 23 - e.primary_m_bits := by
  unfold Encoding.init at h
  split at h
  case isTrue hcond =>
    cases h
    exact ⟨hcond.1, hcond.2, rfl, rfl, init_primary_le a hcond.1 hcond.2, rfl⟩
  case isFalse => exact absurd h (by simp)

lemma pyRound_half_eq : pyRound ((1 - 1/2) * 23) = 12 := by
  have h1 : ((1 : ℚ) - 1/2) * 23 = 23/2 := by norm_num
  have hf : ⌊(23/2 : ℚ)⌋ = 11 := by
    apply Int.floor_eq_iff.mpr
    constructor <;> norm_num
  rw [h1]
  unfold pyRound
  rw [hf]
  norm_num

lemma init_half : Encoding.init (1/2) = some enc05 := by
  unfold Encoding.init
  rw [if_pos (by norm_num), pyRound_half_eq]
  rfl

lemma init_zero : Encoding.init 0 = some enc00 := by
  have hpr : pyRound ((1 - 0) * 23) = 23 := by
    have h1 : ((1 : ℚ) - 0) * 23 = 23 := by norm_num
    have hf : ⌊(23 : ℚ)⌋ = 23 := by
      apply Int.floor_eq_iff.mpr
      constructor <;> norm_num
    rw [h1]
    unfold pyRound
    rw [hf]
    norm_num
  unfold Encoding.init
  rw [if_pos (by norm_num), hpr]
  rfl

lemma init_one : Encoding.init 1 = some enc10 := by
  have hpr : pyRound ((1 - 1) * 23) = 0 := by
    have h1 : ((1 : ℚ) - 1) * 23 = 0 := by norm_num
    have hf : ⌊(0 : ℚ)⌋ = 0 := by
      apply Int.floor_eq_iff.mpr
      constructor <;> norm_num
    rw [h1]
    unfold pyRound
    rw [hf]
    norm_num
  unfold Encoding.init
  rw [if_pos (by norm_num), hpr]
  rfl

/-! ### Claims about construction -/

/-- C3: construction fails (via the `assert`, modelled as `none`) for every
aggression outside the closed interval `[0, 1]` — in particular for
`-0.1` and `1.1` — and succeeds for `0.0` and `1.0`; out-of-range values
produce no codec at all, so nothing is silently clamped. -/
theorem init_rejects_out_of_range (a : ℚ) (ha : a < 0 ∨ 1 < a) :
    Encoding.init a = none ∧ (Encoding.init 0).isSome = true ∧
      (Encoding.init 1).isSome = true ∧ Encoding.init (-1/10) = none ∧
      Encoding.init (11/10) = none := by
  refine ⟨?_, ?_, ?_, ?_, ?_⟩
  · have hcond : ¬(0 ≤ a ∧ a ≤ 1) := by
      rcases ha with h | h
      · exact fun hc => absurd hc.1 (not_le.mpr h)
      · exact fun hc => absurd hc.2 (not_le.mpr h)
    unfold Encoding.init
    rw [if_neg hcond]
  · rw [init_zero]; rfl
  · rw [init_one]; rfl
  · have hcond : ¬((0 : ℚ) ≤ -1/10 ∧ (-1/10 : ℚ) ≤ 1) := by norm_num
    unfold Encoding.init
    rw [if_neg hcond]
  · have hcond : ¬((0 : ℚ) ≤ 11/10 ∧ (11/10 : ℚ) ≤ 1) := by norm_num
    unfold Encoding.init
    rw [if_neg hcond]

/-- Witness for C3 at the concrete out-of-range aggression `-0.1`. -/
theorem init_rejects_out_of_range_witness :
    (-1/10 : ℚ) < 0 ∧
      (Encoding.init (-1/10) = none ∧ (Encoding.init 0).isSome = true ∧
        (Encoding.init 1).isSome = true ∧ Encoding.init (-1/10) = none ∧
        Encoding.init (11/10) = none) :=
  ⟨by norm_num, init_rejects_out_of_range (-1/10) (Or.inl (by norm_num))⟩

/-- C4: `aggression = 0.5` rounds `(1 - 0.5) * 23 = 11.5` to `12` (Python's
round-half-to-even sends `11.5` up to the even integer `12`), so the codec
has `primary_m_bits = 12` and `residual_m_bits = 11`. -/
theorem midpoint_rounding_primary_twelve :
    pyRound ((1 - 1/2) * 23) = 12 ∧ Encoding.init (1/2) = some enc05 ∧
      enc05.primary_m_bits = 12 ∧ enc05.residual_m_bits = 11 :=
  ⟨pyRound_half_eq, init_half, rfl, rfl⟩

/-- C5: every successfully constructed codec satisfies
`primary_m_bits + residual_m_bits = 23` with both components at most `23`
(they are `ℕ`, hence non-negative); the pair is part of the immutable value
produced at construction. -/
theorem split_invariant (a : ℚ) (e : Encoding) (h : Encoding.init a = some e) :
    e.primary_m_bits + e.residual_m_bits = 23 ∧ e.primary_m_bits ≤ 23 ∧
      e.residual_m_bits ≤ 23 := by
  obtain ⟨-, -, -, -, hle, hres⟩ := init_eq_some a e h
  omega

/-- Witness for C5 at `aggression = 0.5`. -/
theorem split_invariant_witness :
    enc05.primary_m_bits + enc05.residual_m_bits = 23 ∧
      enc05.primary_m_bits ≤ 23 ∧ enc05.residual_m_bits ≤ 23 :=
  split_invariant (1/2) enc05 init_half

/-- C9: the constructor's default aggression is `0.5`, and the resulting
default codec has `primary_m_bits = 12` and `residual_m_bits = 11`. -/
theorem default_aggression_codec :
    Encoding.defaultAggression = 1/2 ∧ Encoding.initDefault = some enc05 ∧
      enc05.primary_m_bits = 12 ∧ enc05.residual_m_bits = 11 :=
  ⟨rfl, init_half, rfl, rfl⟩

/-! ### Bit-field arithmetic helpers -/

lemma and_one_eq (x : ℕ) : x &&& 0x1 = x % 2 := by
  norm_num

lemma and_255_eq (x : ℕ) : x &&& 0xFF = x % 256 := by
  have h := Nat.and_pow_two_sub_one_eq_mod x 8
  norm_num at h
  exact h

lemma and_mask23_eq (x : ℕ) : x &&& 0x7FFFFF = x % 2 ^ 23 := by
  have h := Nat.and_pow_two_sub_one_eq_mod x 23
  have h23 : (2 : ℕ) ^ 23 - 1 = 0x7FFFFF := by norm_num
  rw [h23] at h
  exact h

lemma and_shiftLeft_mask (x n : ℕ) : x &&& ((1 <<< n) - 1) = x % 2 ^ n := by
  rw [Nat.shiftLeft_eq, one_mul, Nat.and_pow_two_sub_one_eq_mod]

lemma pack3 (s E m a b : ℕ) (hE : E < 2 ^ a) (hm : m < 2 ^ b) :
    (s <<< (a + b)) ||| (E <<< b) ||| m = 2 ^ (a + b) * s + 2 ^ b * E + m := by
  have hB : E <<< b < 2 ^ (a + b) := by
    rw [Nat.shiftLeft_eq, pow_add]
    exact (mul_lt_mul_right (pow_pos two_pos b)).mpr hE
  have h1 : (s <<< (a + b)) ||| (E <<< b) = 2 ^ (a + b) * s + E <<< b := by
    rw [Nat.shiftLeft_eq s, Nat.mul_comm s]
    exact (Nat.mul_add_lt_is_or hB s).symm
  rw [h1, Nat.shiftLeft_eq E]
  have h2 : 2 ^ (a + b) * s + E * 2 ^ b = 2 ^ b * (2 ^ a * s + E) := by
    rw [pow_add]; ring
  rw [h2, ← Nat.mul_add_lt_is_or hm, pow_add]
  ring

lemma pack2 (x m b : ℕ) (hm : m < 2 ^ b) : (x <<< b) ||| m = 2 ^ b * x + m := by
  rw [Nat.shiftLeft_eq x, Nat.mul_comm x]
  exact (Nat.mul_add_lt_is_or hm x).symm

lemma unpack_mantissa (s E m a b : ℕ) (hm : m < 2 ^ b) :
    (2 ^ (a + b) * s + 2 ^ b * E + m) % 2 ^ b = m := by
  have h : 2 ^ (a + b) * s + 2 ^ b * E + m = 2 ^ b * (2 ^ a * s + E) + m := by
    rw [pow_add]; ring
  rw [h, Nat.mul_add_mod, Nat.mod_eq_of_lt hm]

lemma unpack_div (s E m a b : ℕ) (hm : m < 2 ^ b) :
    (2 ^ (a + b) * s + 2 ^ b * E + m) / 2 ^ b = 2 ^ a * s + E := by
  have h : 2 ^ (a + b) * s + 2 ^ b * E + m = 2 ^ b * (2 ^ a * s + E) + m := by
    rw [pow_add]; ring
  rw [h, Nat.mul_add_div (pow_pos two_pos b), Nat.div_eq_of_lt hm, Nat.add_zero]

lemma unpack_exponent (s E m a b : ℕ) (hE : E < 2 ^ a) (hm : m < 2 ^ b) :
    (2 ^ (a + b) * s + 2 ^ b * E + m) / 2 ^ b % 2 ^ a = E := by
  rw [unpack_div s E m a b hm, Nat.mul_add_mod, Nat.mod_eq_of_lt hE]

lemma unpack_sign (s E m a b : ℕ) (hs : s < 2) (hE : E < 2 ^ a) (hm : m < 2 ^ b) :
    (2 ^ (a + b) * s + 2 ^ b * E + m) / 2 ^ (a + b) % 2 = s := by
  have hEm : 2 ^ b * E + m < 2 ^ (a + b) := by
    have h1 : 2 ^ b * E + m < 2 ^ b * (E + 1) := by
      have hexp : 2 ^ b * (E + 1) = 2 ^ b * E + 2 ^ b := by ring
      omega
    have h2 : 2 ^ b * (E + 1) ≤ 2 ^ b * 2 ^ a :=
      Nat.mul_le_mul_left _ hE
    calc 2 ^ b * E + m < 2 ^ b * (E + 1) := h1
      _ ≤ 2 ^ b * 2 ^ a := h2
      _ = 2 ^ (a + b) := by rw [pow_add]; ring
  have h : 2 ^ (a + b) * s + 2 ^ b * E + m = 2 ^ (a + b) * s + (2 ^ b * E + m) := by
    ring
  rw [h, Nat.mul_add_div (pow_pos two_pos _), Nat.div_eq_of_lt hEm, Nat.add_zero,
    Nat.mod_eq_of_lt hs]

/-! ### Word-level characterisation of encode and the round trip -/

lemma exp_field_lt (raw : ℕ) : raw / 2 ^ 23 % 256 < 2 ^ 8 := by
  have h := Nat.mod_lt (raw / 2 ^ 23) (show 0 < 256 by norm_num)
  norm_num
  exact h

lemma mp_lt (e : Encoding) (h23 : e.primary_m_bits + e.residual_m_bits = 23) (raw : ℕ) :
    raw % 2 ^ 23 / 2 ^ e.residual_m_bits < 2 ^ e.primary_m_bits := by
  rw [Nat.div_lt_iff_lt_mul (pow_pos two_pos _)]
  calc raw % 2 ^ 23 < 2 ^ 23 := Nat.mod_lt _ (pow_pos two_pos _)
    _ = 2 ^ e.primary_m_bits * 2 ^ e.residual_m_bits := by rw [← pow_add, h23]

lemma encodeWord_fst (e : Encoding) (h23 : e.primary_m_bits + e.residual_m_bits = 23)
    (raw : ℕ) :
    (encodeWord e raw).1 =
      2 ^ (8 + e.primary_m_bits) * (raw / 2 ^ 31 % 2) +
        2 ^ e.primary_m_bits * (raw / 2 ^ 23 % 256) +
        raw % 2 ^ 23 / 2 ^ e.residual_m_bits := by
  simp only [encodeWord]
  simp only [Nat.shiftRight_eq_div_pow]
  rw [and_one_eq, and_255_eq, and_mask23_eq]
  exact pack3 _ _ _ 8 _ (exp_field_lt raw) (mp_lt e h23 raw)

lemma encodeWord_snd (e : Encoding) (raw : ℕ) :
    (encodeWord e raw).2 = raw % 2 ^ 23 % 2 ^ e.residual_m_bits := by
  simp only [encodeWord]
  rw [and_mask23_eq, and_shiftLeft_mask]

lemma encodeWord_fst_lt (e : Encoding) (h23 : e.primary_m_bits + e.residual_m_bits = 23)
    (raw : ℕ) :
    (encodeWord e raw).1 < 2 ^ (9 + e.primary_m_bits) := by
  simp only [encodeWord]
  apply Nat.or_lt_two_pow
  · apply Nat.or_lt_two_pow
    · rw [and_one_eq, Nat.shiftLeft_eq]
      have hs : raw >>> 31 % 2 < 2 := Nat.mod_lt _ two_pos
      calc raw >>> 31 % 2 * 2 ^ (8 + e.primary_m_bits)
          < 2 * 2 ^ (8 + e.primary_m_bits) :=
            (mul_lt_mul_right (pow_pos two_pos _)).mpr hs
        _ = 2 ^ (9 + e.primary_m_bits) := by
            have h9 : 9 + e.primary_m_bits = (8 + e.primary_m_bits) + 1 := by omega
            rw [h9, pow_succ]
            exact Nat.mul_comm 2 _
    · rw [and_255_eq, Nat.shiftLeft_eq]
      have hE : raw >>> 23 % 256 < 256 := Nat.mod_lt _ (by norm_num)
      calc raw >>> 23 % 256 * 2 ^ e.primary_m_bits
          < 256 * 2 ^ e.primary_m_bits :=
            (mul_lt_mul_right (pow_pos two_pos _)).mpr hE
        _ = 2 ^ (8 + e.primary_m_bits) := by rw [pow_add]; norm_num
        _ ≤ 2 ^ (9 + e.primary_m_bits) :=
            Nat.pow_le_pow_right (by norm_num) (by omega)
  · rw [and_mask23_eq, Nat.shiftRight_eq_div_pow]
    exact lt_of_lt_of_le (mp_lt e h23 raw)
      (Nat.pow_le_pow_right (by norm_num) (by omega))

lemma repack (x : ℕ) (hx : x < 2 ^ 32) :
    ((x / 2 ^ 31 % 2) <<< 31) ||| ((x / 2 ^ 23 % 2 ^ 8) <<< 23) ||| x % 2 ^ 23 = x := by
  have hE : x / 2 ^ 23 % 2 ^ 8 < 2 ^ 8 := Nat.mod_lt _ (pow_pos two_pos _)
  have hm : x % 2 ^ 23 < 2 ^ 23 := Nat.mod_lt _ (pow_pos two_pos _)
  have h := pack3 (x / 2 ^ 31 % 2) (x / 2 ^ 23 % 2 ^ 8) (x % 2 ^ 23) 8 23 hE hm
  rw [show (8 : ℕ) + 23 = 31 from rfl] at h
  rw [h]
  have e1 : (2 : ℕ) ^ 31 = 2147483648 := by norm_num
  have e2 : (2 : ℕ) ^ 23 = 8388608 := by norm_num
  have e3 : (2 : ℕ) ^ 8 = 256 := by norm_num
  have e4 : x < 4294967296 := by
    calc x < 2 ^ 32 := hx
      _ = 4294967296 := by norm_num
  rw [e1, e2, e3]
  omega

lemma decodeWord_encodeWord (e : Encoding)
    (h23 : e.primary_m_bits + e.residual_m_bits = 23)
    (raw : ℕ) (hraw : raw < 2 ^ 32) :
    decodeWord e (encodeWord e raw).1 (encodeWord e raw).2 = raw := by
  have hE2 : raw / 2 ^ 23 % 2 ^ 8 < 2 ^ 8 := Nat.mod_lt _ (pow_pos two_pos _)
  have hs : raw / 2 ^ 31 % 2 < 2 := Nat.mod_lt _ two_pos
  have hmp := mp_lt e h23 raw
  have hmr : raw % 2 ^ 23 % 2 ^ e.residual_m_bits < 2 ^ e.residual_m_bits :=
    Nat.mod_lt _ (pow_pos two_pos _)
  rw [encodeWord_fst e h23 raw, encodeWord_snd e raw]
  rw [show (256 : ℕ) = 2 ^ 8 by norm_num]
  simp only [decodeWord]
  simp only [Nat.shiftRight_eq_div_pow]
  rw [and_shiftLeft_mask, and_255_eq, and_one_eq]
  rw [show (256 : ℕ) = 2 ^ 8 by norm_num]
  rw [unpack_mantissa _ _ _ 8 _ hmp, unpack_exponent _ _ _ 8 _ hE2 hmp,
    unpack_sign _ _ _ 8 _ hs hE2 hmp]
  rw [pack2 _ _ _ hmr, Nat.div_add_mod]
  exact repack raw hraw

lemma encodeWord_fst_lt32 (e : Encoding)
    (h23 : e.primary_m_bits + e.residual_m_bits = 23) (x : ℕ) :
    (encodeWord e x).1 < 2 ^ 32 :=
  lt_of_lt_of_le (encodeWord_fst_lt e h23 x)
    (Nat.pow_le_pow_right (by norm_num) (by omega))

lemma encodeWord_snd_lt32 (e : Encoding) (x : ℕ) : (encodeWord e x).2 < 2 ^ 32 := by
  rw [encodeWord_snd]
  calc x % 2 ^ 23 % 2 ^ e.residual_m_bits ≤ x % 2 ^ 23 := Nat.mod_le _ _
    _ < 2 ^ 23 := Nat.mod_lt _ (pow_pos two_pos _)
    _ < 2 ^ 32 := by norm_num

lemma decodeLowWord_eq (e : Encoding) (p : ℕ) : decodeLowWord e p = decodeWord e p 0 := by
  simp only [decodeLowWord, decodeWord, Nat.or_zero]

lemma zipWith_decode_encode (e : Encoding)
    (h23 : e.primary_m_bits + e.residual_m_bits = 23) :
    ∀ t : List ℕ, (∀ x ∈ t, x < 2 ^ 32) →
      List.zipWith (decodeWord e) (t.map fun raw => (encodeWord e raw).1)
        (t.map fun raw => (encodeWord e raw).2) = t := by
  intro t
  induction t with
  | nil => intro _; rfl
  | cons x xs ih =>
    intro ht
    simp only [List.map_cons, List.zipWith_cons_cons]
    rw [decodeWord_encodeWord e h23 x (ht x (List.mem_cons_self x xs)),
      ih fun y hy => ht y (List.mem_cons_of_mem x hy)]

/-! ### Claims about the transforms -/

/-- C1: for every valid aggression and every sequence of float32 bit
patterns (all 32-bit patterns, hence including NaN payloads, infinities,
signed zeros and subnormals), `decode` applied to the two streams produced
by `encode` returns the input sequence exactly, bit for bit. -/
theorem decode_encode_roundtrip (a : ℚ) (e : Encoding) (h : Encoding.init a = some e)
    (t : List ℕ) (ht : ∀ x ∈ t, x < 2 ^ 32) :
    e.decode (e.encode t).1 (e.encode t).2 = some t := by
  obtain ⟨-, -, -, -, hle, hres⟩ := init_eq_some a e h
  have h23 : e.primary_m_bits + e.residual_m_bits = 23 := by omega
  unfold Encoding.decode Encoding.encode
  have hmap1 : (t.map fun raw => (encodeWord e raw).1).map (· % 2 ^ 32) =
      t.map fun raw => (encodeWord e raw).1 := by
    rw [List.map_map]
    apply List.map_congr_left
    intro x _
    exact Nat.mod_eq_of_lt (encodeWord_fst_lt32 e h23 x)
  have hmap2 : (t.map fun raw => (encodeWord e raw).2).map (· % 2 ^ 32) =
      t.map fun raw => (encodeWord e raw).2 := by
    rw [List.map_map]
    apply List.map_congr_left
    intro x _
    exact Nat.mod_eq_of_lt (encodeWord_snd_lt32 e x)
  rw [hmap1, hmap2]
  unfold broadcastZipWith
  rw [if_pos (by simp)]
  rw [zipWith_decode_encode e h23 t ht]

/-- Witness for C1: the four literals of the demonstration driver
(`1.5`, `-2.75`, `0.0`, `100.125` as float32 bit patterns) round-trip
exactly under the default `aggression = 0.5` codec. -/
theorem decode_encode_roundtrip_witness :
    enc05.decode (enc05.encode [0x3FC00000, 0xC0300000, 0, 0x42C84000]).1
        (enc05.encode [0x3FC00000, 0xC0300000, 0, 0x42C84000]).2 =
      some [0x3FC00000, 0xC0300000, 0, 0x42C84000] :=
  decode_encode_roundtrip (1/2) enc05 init_half
    [0x3FC00000, 0xC0300000, 0, 0x42C84000] (by decide)

/-- C8: every element of the primary stream is a non-negative integer (it
is a `ℕ` bit pattern) strictly below `2 ^ (9 + primary_m_bits)`, i.e. it
fits in `9 + primary_m_bits` bits: one sign bit, eight exponent bits and
`primary_m_bits` mantissa bits. -/
theorem primary_stream_width (a : ℚ) (e : Encoding) (h : Encoding.init a = some e)
    (t : List ℕ) (_ht : ∀ x ∈ t, x < 2 ^ 32) :
    ∀ y ∈ (e.encode t).1, y < 2 ^ (9 + e.primary_m_bits) := by
  obtain ⟨-, -, -, -, hle, hres⟩ := init_eq_some a e h
  have h23 : e.primary_m_bits + e.residual_m_bits = 23 := by omega
  intro y hy
  unfold Encoding.encode at hy
  simp only [List.mem_map] at hy
  obtain ⟨x, -, rfl⟩ := hy
  exact encodeWord_fst_lt e h23 x

/-- Witness for C8: the primary word of the float `1.5` under
`aggression = 0.5` is `522240`, which fits in `9 + 12 = 21` bits. -/
theorem primary_stream_width_witness : (522240 : ℕ) < 2 ^ (9 + enc05.primary_m_bits) :=
  primary_stream_width (1/2) enc05 init_half [0x3FC00000] (by decide) 522240 (by decide)

lemma encode_residual_zero (e : Encoding) (h0 : e.residual_m_bits = 0) (t : List ℕ) :
    ∀ y ∈ (e.encode t).2, y = 0 := by
  intro y hy
  unfold Encoding.encode at hy
  simp only [List.mem_map] at hy
  obtain ⟨x, -, rfl⟩ := hy
  rw [encodeWord_snd, h0, pow_zero, Nat.mod_one]

lemma decode_low_encode (e : Encoding)
    (h23 : e.primary_m_bits + e.residual_m_bits = 23) (h0 : e.residual_m_bits = 0)
    (t : List ℕ) (ht : ∀ x ∈ t, x < 2 ^ 32) : e.decode_low (e.encode t).1 = t := by
  unfold Encoding.decode_low Encoding.encode
  rw [List.map_map, List.map_map]
  refine (List.map_congr_left ?_).trans (List.map_id t)
  intro x hx
  simp only [Function.comp_apply, id_eq]
  rw [Nat.mod_eq_of_lt (encodeWord_fst_lt32 e h23 x), decodeLowWord_eq]
  have h2 : (encodeWord e x).2 = 0 := by rw [encodeWord_snd, h0, pow_zero, Nat.mod_one]
  rw [← h2]
  exact decodeWord_encodeWord e h23 x (ht x hx)

/-- C6: `aggression = 0` gives the split 23/0, every residual produced by
`encode` is `0`, and `decode_low` alone inverts `encode` exactly;
`aggression = 1` gives the split 0/23, so the primary word holds only the
sign and exponent bits. -/
theorem boundary_aggression (e0 e1 : Encoding) (h0 : Encoding.init 0 = some e0)
    (h1 : Encoding.init 1 = some e1) (t : List ℕ) (ht : ∀ x ∈ t, x < 2 ^ 32) :
    e0.primary_m_bits = 23 ∧ e0.residual_m_bits = 0 ∧
      (∀ y ∈ (e0.encode t).2, y = 0) ∧ e0.decode_low (e0.encode t).1 = t ∧
      e1.primary_m_bits = 0 ∧ e1.residual_m_bits = 23 := by
  rw [init_zero] at h0
  rw [init_one] at h1
  cases h0
  cases h1
  exact ⟨rfl, rfl, encode_residual_zero enc00 rfl t,
    decode_low_encode enc00 rfl rfl t ht, rfl, rfl⟩

/-- Witness for C6 at the concrete input `[1.5]` (bit pattern
`0x3FC00000`): the single residual is `0` and `decode_low` recovers the
input from the primary stream alone. -/
theorem boundary_aggression_witness :
    enc00.primary_m_bits = 23 ∧ enc00.residual_m_bits = 0 ∧ (0 : ℕ) = 0 ∧
      enc00.decode_low (enc00.encode [0x3FC00000]).1 = [0x3FC00000] ∧
      enc10.primary_m_bits = 0 ∧ enc10.residual_m_bits = 23 := by
  have h := boundary_aggression enc00 enc10 init_zero init_one [0x3FC00000] (by decide)
  exact ⟨h.1, h.2.1, h.2.2.1 0 (by decide), h.2.2.2.1, h.2.2.2.2.1, h.2.2.2.2.2⟩

/-- C2 counterexample: `decode` called with a length-1 primary stream and a
length-2 residual stream does not fail at all — torch's elementwise
broadcasting silently produces two decoded values, contradicting the claim
that any length mismatch fails with no results. -/
theorem decode_length_mismatch_counterexample :
    enc05.decode [522240] [0, 5] = some [1069547520, 1069547525] := by decide

/-- C2 (amended): `decode` called with primary/residual streams of
differing lengths fails immediately with a shape error and returns no
results, except when one of the streams has length 1, in which case torch
broadcasting replicates its single element across the other stream. -/
theorem decode_length_mismatch (e : Encoding) (p r : List ℕ)
    (hlen : p.length ≠ r.length) (hp : p.length ≠ 1) (hr : r.length ≠ 1) :
    e.decode p r = none := by
  unfold Encoding.decode broadcastZipWith
  rw [if_neg (by simpa using hlen), if_neg (by simpa using hp),
    if_neg (by simpa using hr)]

/-- Witness for the amended C2: lengths 2 and 3 (neither equal to 1) fail
with no results. -/
theorem decode_length_mismatch_witness : enc05.decode [0, 0] [0, 0, 0] = none :=
  decode_length_mismatch enc05 [0, 0] [0, 0, 0] (by decide) (by decide) (by decide)

/-! ### decode versus decode_low -/

lemma decodeWord_arith (e : Encoding) (p r : ℕ) (hr : r < 2 ^ e.residual_m_bits)
    (h23 : e.primary_m_bits + e.residual_m_bits = 23) :
    decodeWord e p r =
      2 ^ 31 * (p / 2 ^ (8 + e.primary_m_bits) % 2) +
        2 ^ 23 * (p / 2 ^ e.primary_m_bits % 256) +
        (2 ^ e.residual_m_bits * (p % 2 ^ e.primary_m_bits) + r) := by
  simp only [decodeWord]
  simp only [Nat.shiftRight_eq_div_pow]
  rw [and_shiftLeft_mask, and_255_eq, and_one_eq]
  rw [pack2 _ _ _ hr]
  have hE : p / 2 ^ e.primary_m_bits % 256 < 2 ^ 8 := by
    rw [show (2 : ℕ) ^ 8 = 256 by norm_num]
    exact Nat.mod_lt _ (by norm_num)
  have hM : 2 ^ e.residual_m_bits * (p % 2 ^ e.primary_m_bits) + r < 2 ^ 23 := by
    have hmp : p % 2 ^ e.primary_m_bits < 2 ^ e.primary_m_bits :=
      Nat.mod_lt _ (pow_pos two_pos _)
    have hstep : 2 ^ e.residual_m_bits * (p % 2 ^ e.primary_m_bits) + r <
        2 ^ e.residual_m_bits * 2 ^ e.primary_m_bits := by
      have hexp : 2 ^ e.residual_m_bits * (p % 2 ^ e.primary_m_bits + 1) =
          2 ^ e.residual_m_bits * (p % 2 ^ e.primary_m_bits) + 2 ^ e.residual_m_bits := by
        ring
      have hle : 2 ^ e.residual_m_bits * (p % 2 ^ e.primary_m_bits + 1) ≤
          2 ^ e.residual_m_bits * 2 ^ e.primary_m_bits :=
        Nat.mul_le_mul_left _ hmp
      omega
    calc 2 ^ e.residual_m_bits * (p % 2 ^ e.primary_m_bits) + r
        < 2 ^ e.residual_m_bits * 2 ^ e.primary_m_bits := hstep
      _ = 2 ^ 23 := by
          rw [← pow_add, show e.residual_m_bits + e.primary_m_bits = 23 by omega]
  rw [show (31 : ℕ) = 8 + 23 from rfl]
  exact pack3 _ _ _ 8 23 hE hM

lemma decodeWord_eq_decodeLowWord_iff (e : Encoding)
    (h23 : e.primary_m_bits + e.residual_m_bits = 23) (p r : ℕ)
    (hr : r < 2 ^ e.residual_m_bits) :
    decodeWord e p r = decodeLowWord e p ↔ r = 0 := by
  constructor
  · intro heq
    rw [decodeLowWord_eq] at heq
    rw [decodeWord_arith e p r hr h23,
      decodeWord_arith e p 0 (pow_pos two_pos _) h23] at heq
    have h1 : 2 ^ e.residual_m_bits * (p % 2 ^ e.primary_m_bits) + r =
        2 ^ e.residual_m_bits * (p % 2 ^ e.primary_m_bits) + 0 :=
      Nat.add_left_cancel heq
    exact Nat.add_left_cancel h1
  · rintro rfl
    rw [decodeLowWord_eq]

lemma decodeWord_mod_eq_iff (e : Encoding)
    (h23 : e.primary_m_bits + e.residual_m_bits = 23) (x y : ℕ)
    (hy : y < 2 ^ e.residual_m_bits) :
    decodeWord e (x % 2 ^ 32) (y % 2 ^ 32) = decodeLowWord e (x % 2 ^ 32) ↔ y = 0 := by
  have hy32 : y % 2 ^ 32 = y :=
    Nat.mod_eq_of_lt (lt_of_lt_of_le hy (Nat.pow_le_pow_right (by norm_num) (by omega)))
  rw [hy32]
  exact decodeWord_eq_decodeLowWord_iff e h23 (x % 2 ^ 32) y hy

lemma zipWith_eq_map_iff (e : Encoding)
    (h23 : e.primary_m_bits + e.residual_m_bits = 23) :
    ∀ p r : List ℕ, p.length = r.length → (∀ x ∈ r, x < 2 ^ e.residual_m_bits) →
      (List.zipWith (decodeWord e) (p.map (· % 2 ^ 32)) (r.map (· % 2 ^ 32)) =
          (p.map (· % 2 ^ 32)).map (decodeLowWord e) ↔ ∀ x ∈ r, x = 0) := by
  intro p
  induction p with
  | nil =>
    intro r hlen _
    cases r with
    | nil => simp
    | cons y ys => simp at hlen
  | cons x xs ih =>
    intro r hlen hr
    cases r with
    | nil => simp at hlen
    | cons y ys =>
      have hlen' : xs.length = ys.length := by
        simpa using hlen
      have hy := hr y (List.mem_cons_self y ys)
      have hys : ∀ z ∈ ys, z < 2 ^ e.residual_m_bits :=
        fun z hz => hr z (List.mem_cons_of_mem y hz)
      simp only [List.map_cons, List.zipWith_cons_cons, List.cons.injEq]
      constructor
      · rintro ⟨h1, h2⟩
        have hy0 : y = 0 := (decodeWord_mod_eq_iff e h23 x y hy).mp h1
        intro z hz
        rcases List.mem_cons.mp hz with rfl | hz'
        · exact hy0
        · exact ((ih ys hlen' hys).mp h2) z hz'
      · intro hall
        refine ⟨?_, (ih ys hlen' hys).mpr fun z hz => hall z (List.mem_cons_of_mem y hz)⟩
        have hy0 : y = 0 := hall y (List.mem_cons_self y ys)
        subst hy0
        exact (decodeWord_mod_eq_iff e h23 x 0 hy).mpr rfl

/-- C7: for every valid aggression, every primary stream, and every
residual stream of the same length with in-range values, `decode_low` on
the primary stream yields the same output as `decode` on the pair exactly
when every residual value is `0`. -/
theorem decode_low_eq_decode_iff (a : ℚ) (e : Encoding) (h : Encoding.init a = some e)
    (p r : List ℕ) (hlen : p.length = r.length)
    (hr : ∀ x ∈ r, x < 2 ^ e.residual_m_bits) :
    e.decode p r = some (e.decode_low p) ↔ ∀ x ∈ r, x = 0 := by
  obtain ⟨-, -, -, -, hle, hres⟩ := init_eq_some a e h
  have h23 : e.primary_m_bits + e.residual_m_bits = 23 := by omega
  unfold Encoding.decode Encoding.decode_low broadcastZipWith
  rw [if_pos (by simp [hlen])]
  rw [Option.some.injEq]
  exact zipWith_eq_map_iff e h23 p r hlen hr

/-- Witness for C7: under `aggression = 0.5`, decoding the primary word of
`1.5` with the zero residual equals the low decode of that word. -/
theorem decode_low_eq_decode_iff_witness :
    enc05.decode [522240] [0] = some (enc05.decode_low [522240]) :=
  (decode_low_eq_decode_iff (1/2) enc05 init_half [522240] [0] (by decide)
    (by decide)).mpr (by decide)

/-! ### decode depends only on the low 9 + primary_m_bits bits -/

lemma mod_pow_div_mod (x a c k : ℕ) (hack : a + c ≤ k) :
    x % 2 ^ k / 2 ^ a % 2 ^ c = x / 2 ^ a % 2 ^ c := by
  have hsplit : (2 : ℕ) ^ k = 2 ^ a * 2 ^ (k - a) := by
    rw [← pow_add]
    congr 1
    omega
  rw [hsplit, Nat.mod_mul_right_div_self]
  exact Nat.mod_mod_of_dvd _ (pow_dvd_pow 2 (by omega))

lemma decodeWord_low_bits_congr (e : Encoding) (h9 : 9 + e.primary_m_bits ≤ 32)
    (x y : ℕ)
    (hxy : x % 2 ^ (9 + e.primary_m_bits) = y % 2 ^ (9 + e.primary_m_bits)) (r : ℕ) :
    decodeWord e (x % 2 ^ 32) r = decodeWord e (y % 2 ^ 32) r := by
  simp only [decodeWord]
  simp only [Nat.shiftRight_eq_div_pow]
  simp only [and_shiftLeft_mask, and_255_eq, and_one_eq]
  have f1 : x % 2 ^ 32 % 2 ^ e.primary_m_bits = y % 2 ^ 32 % 2 ^ e.primary_m_bits := by
    rw [Nat.mod_mod_of_dvd _ (pow_dvd_pow 2 (by omega : e.primary_m_bits ≤ 32)),
      Nat.mod_mod_of_dvd _ (pow_dvd_pow 2 (by omega : e.primary_m_bits ≤ 32))]
    calc x % 2 ^ e.primary_m_bits
        = x % 2 ^ (9 + e.primary_m_bits) % 2 ^ e.primary_m_bits :=
          (Nat.mod_mod_of_dvd _ (pow_dvd_pow 2 (by omega))).symm
      _ = y % 2 ^ (9 + e.primary_m_bits) % 2 ^ e.primary_m_bits := by rw [hxy]
      _ = y % 2 ^ e.primary_m_bits := Nat.mod_mod_of_dvd _ (pow_dvd_pow 2 (by omega))
  have f2 : x % 2 ^ 32 / 2 ^ e.primary_m_bits % 256 =
      y % 2 ^ 32 / 2 ^ e.primary_m_bits % 256 := by
    rw [show (256 : ℕ) = 2 ^ 8 by norm_num]
    rw [mod_pow_div_mod x e.primary_m_bits 8 32 (by omega),
      mod_pow_div_mod y e.primary_m_bits 8 32 (by omega),
      ← mod_pow_div_mod x e.primary_m_bits 8 (9 + e.primary_m_bits) (by omega),
      ← mod_pow_div_mod y e.primary_m_bits 8 (9 + e.primary_m_bits) (by omega), hxy]
  have f3 : x % 2 ^ 32 / 2 ^ (8 + e.primary_m_bits) % 2 =
      y % 2 ^ 32 / 2 ^ (8 + e.primary_m_bits) % 2 := by
    have g1 := mod_pow_div_mod x (8 + e.primary_m_bits) 1 32 (by omega)
    have g2 := mod_pow_div_mod y (8 + e.primary_m_bits) 1 32 (by omega)
    have g3 := mod_pow_div_mod x (8 + e.primary_m_bits) 1 (9 + e.primary_m_bits) (by omega)
    have g4 := mod_pow_div_mod y (8 + e.primary_m_bits) 1 (9 + e.primary_m_bits) (by omega)
    rw [pow_one] at g1 g2 g3 g4
    rw [g1, g2, ← g3, ← g4, hxy]
  rw [f1, f2, f3]

lemma decodeLowWord_low_bits_congr (e : Encoding) (h9 : 9 + e.primary_m_bits ≤ 32)
    (x y : ℕ)
    (hxy : x % 2 ^ (9 + e.primary_m_bits) = y % 2 ^ (9 + e.primary_m_bits)) :
    decodeLowWord e (x % 2 ^ 32) = decodeLowWord e (y % 2 ^ 32) := by
  rw [decodeLowWord_eq, decodeLowWord_eq]
  exact decodeWord_low_bits_congr e h9 x y hxy 0

lemma zipWith_congr_forall (f : ℕ → ℕ → ℕ) :
    ∀ {xs1 xs2 : List ℕ}, List.Forall₂ (fun u v => ∀ z, f u z = f v z) xs1 xs2 →
      ∀ ys, List.zipWith f xs1 ys = List.zipWith f xs2 ys := by
  intro xs1 xs2 h
  induction h with
  | nil => intro ys; rfl
  | cons hxy htail ih =>
    intro ys
    cases ys with
    | nil => rfl
    | cons z zs =>
      simp only [List.zipWith_cons_cons]
      rw [hxy z, ih zs]

lemma map_congr_forall (f : ℕ → ℕ → ℕ) (z : ℕ) :
    ∀ {xs1 xs2 : List ℕ}, List.Forall₂ (fun u v => ∀ w, f u w = f v w) xs1 xs2 →
      xs1.map (fun x => f x z) = xs2.map (fun x => f x z) := by
  intro xs1 xs2 h
  induction h with
  | nil => rfl
  | cons hxy _ ih => simp only [List.map_cons, hxy z, ih]

lemma broadcastZipWith_congr (f : ℕ → ℕ → ℕ) (xs1 xs2 : List ℕ)
    (hfa : List.Forall₂ (fun u v => ∀ z, f u z = f v z) xs1 xs2) (ys : List ℕ) :
    broadcastZipWith f xs1 ys = broadcastZipWith f xs2 ys := by
  have hlen := hfa.length_eq
  unfold broadcastZipWith
  rw [hlen]
  by_cases h1 : xs2.length = ys.length
  · rw [if_pos h1, if_pos h1]
    exact congrArg some (zipWith_congr_forall f hfa ys)
  · rw [if_neg h1, if_neg h1]
    by_cases h2 : xs2.length = 1
    · rw [if_pos h2, if_pos h2]
      cases hfa with
      | nil => simp at h2
      | cons hxy htail =>
        refine congrArg some (List.map_congr_left fun z _ => ?_)
        exact hxy z
    · rw [if_neg h2, if_neg h2]
      by_cases h3 : ys.length = 1
      · rw [if_pos h3, if_pos h3]
        exact congrArg some (map_congr_forall f ys.headI hfa)
      · rw [if_neg h3, if_neg h3]

/-- C10: `decode` and `decode_low` read only the low
`9 + primary_m_bits` bits of each primary element: two primary streams
that agree elementwise on those low bits (with the same residual stream
for `decode`) decode to identical outputs, whatever their higher bits. -/
theorem decode_depends_on_low_bits (a : ℚ) (e : Encoding)
    (h : Encoding.init a = some e) (p1 p2 r : List ℕ)
    (hagree : List.Forall₂
      (fun x y => x % 2 ^ (9 + e.primary_m_bits) = y % 2 ^ (9 + e.primary_m_bits))
      p1 p2) :
    e.decode p1 r = e.decode p2 r ∧ e.decode_low p1 = e.decode_low p2 := by
  obtain ⟨-, -, -, -, hle, hres⟩ := init_eq_some a e h
  have h9 : 9 + e.primary_m_bits ≤ 32 := by omega
  have hfa : List.Forall₂ (fun u v => ∀ z, decodeWord e u z = decodeWord e v z)
      (p1.map (· % 2 ^ 32)) (p2.map (· % 2 ^ 32)) := by
    induction hagree with
    | nil => exact List.Forall₂.nil
    | cons hxy _ ih =>
      exact List.Forall₂.cons (fun z => decodeWord_low_bits_congr e h9 _ _ hxy z) ih
  constructor
  · unfold Encoding.decode
    exact broadcastZipWith_congr (decodeWord e) _ _ hfa (r.map (· % 2 ^ 32))
  · unfold Encoding.decode_low
    clear hfa
    induction hagree with
    | nil => rfl
    | cons hxy _ ih =>
      simp only [List.map_cons]
      rw [decodeLowWord_low_bits_congr e h9 _ _ hxy, ih]

/-- Witness for C10: under `aggression = 0.5` (so `9 + 12 = 21` low bits
matter), the primary words `5` and `5 + 2 ^ 21` decode identically. -/
theorem decode_depends_on_low_bits_witness :
    enc05.decode [5] [0] = enc05.decode [2097157] [0] ∧
      enc05.decode_low [5] = enc05.decode_low [2097157] :=
  decode_depends_on_low_bits (1/2) enc05 init_half [5] [2097157] [0]
    (List.Forall₂.cons (by decide) List.Forall₂.nil)

end AdaptiveFP
